import Mathlib

/-!
Shallow embedding of the precursor-ts CESKM virtual machine
(src/src/ceskm.ts, src/src/grammar.ts) and proofs about its
transition function.

Modelling conventions:
* The TypeScript class `CESKM<Base>` is generic in the base payload type and
  has two virtual hooks (`literal`, `op`); we embed it as a structure `CESKM`
  of hook functions, parameterised by the literal payload type `L` and the
  base value type `B`.  The runtime check `"boolean" === typeof v` on the
  opaque base payload is modelled by the hook `typeofBoolean`.
* JavaScript records (`Env.env`, `Store.store`) are embedded as association
  lists where a write prepends and lookup takes the first match; this is
  observationally the JS record (later writes shadow earlier ones).
  `Env.clone` copies the underlying record, which for the pure embedding of
  the machine loop is the identity on contents.
* Exceptions become `Except`-style results.  Because `CESKM.continue`
  mutates the caller's `meta` array before it can throw, every machine
  routine returns, besides its result, the final contents of the meta stack
  and of the machine-level `gensymCount` counter.
* The `while` loop of `CESKM.continue` need not terminate (two `Args` frames
  can feed each other forever), so its embedding takes explicit fuel; fuel
  exhaustion is the distinguished result `spin`.
* JavaScript `undefined` can leak into the store through out-of-range array
  indexing (`vals[i]` with `i >= vals.length`); value `Value.undef` models it.
-/

namespace Precursor

/-- Error kinds thrown by the machine (section 7 of the spec names the kinds;
the source throws `Error` with a message at each of these places). -/
inductive Err where
  | unboundSymbol (name : String)
  | unboundAddress (addr : String)
  | invalidPositive
  | ifRequiresBool
  | expectedContinuation
  | arityOrContext
  | unknownOp (op : String)
  | badLiteral
  deriving DecidableEq, Repr

/-- CBPV terms (`Cbpv` in src/src/grammar.ts), parameterised by the literal
payload type `L` (the source uses `unknown`).  The `let` binder is a list of
names, as produced by the parser variant that wraps a single name in a
singleton list. -/
inductive Cbpv (L : Type) where
  | lit (v : L)
  | sym (v : String)
  | op (op : String) (erands : List (Cbpv L))
  | suspend (exp : Cbpv L)
  | resume (v : Cbpv L)
  | abstract (args : List String) (body : Cbpv L)
  | apply (op : Cbpv L) (erands : List (Cbpv L))
  | letE (v : List String) (exp : Cbpv L) (body : Cbpv L)
  | letrec (bindings : List (String × Cbpv L)) (body : Cbpv L)
  | reset (exp : Cbpv L)
  | shiftE (karg : String) (body : Cbpv L)
  | ifE (c : Cbpv L) (t : Cbpv L) (e : Cbpv L)

/-- `cbpv_is_positive` from src/src/grammar.ts: true exactly on the four
positive variants. -/
def cbpv_is_positive {L : Type} : Cbpv L → Bool
  | .lit _ => true
  | .sym _ => true
  | .op _ _ => true
  | .suspend _ => true
  | _ => false

/-- An environment entry: an address string or a term definition
(`string | Cbpv` in the source). -/
abbrev AddrOrExpr (L : Type) := String ⊕ Cbpv L

/-- The underlying record of an `Env` object: an association list where the
head shadows the tail. -/
abbrev EnvRec (L : Type) := List (String × AddrOrExpr L)

/-- Record write (`this.env[name] = addrOrExpr`): prepend, shadowing any
earlier entry for the same name. -/
def recBind {L : Type} (env : EnvRec L) (name : String) (v : AddrOrExpr L) :
    EnvRec L :=
  (name, v) :: env

/-- Record read (`Env.lookup`); `none` models the `not bound` throw. -/
def recLookup {L : Type} : EnvRec L → String → Option (AddrOrExpr L)
  | [], _ => none
  | (n, v) :: rest, name => if n = name then some v else recLookup rest name

mutual
/-- `Value<T>` from src/src/ceskm.ts: a wrapped base scalar `{v}` or a
wrapped continuation `{k}`; `undef` models a JavaScript `undefined` obtained
from out-of-range array indexing. -/
inductive Value (L B : Type) where
  | scalar (v : B)
  | kont (k : Continuation L B)
  | undef

/-- `Continuation<T>`: `Top`, an `Args` frame, or a `Let` frame. -/
inductive Continuation (L B : Type) where
  | top
  | args (vals : List (Value L B)) (next : Continuation L B)
  | letk (names : List String) (exp : Cbpv L) (env : EnvRec L)
      (next : Continuation L B)
end

/-- The `closure` helper: `KontVal(Let([], exp, env, Top))`. -/
def closure {L B : Type} (exp : Cbpv L) (env : EnvRec L) : Value L B :=
  .kont (.letk [] exp env .top)

/-- The underlying record of a `Store` object. -/
abbrev StoreRec (L B : Type) := List (String × Value L B)

/-- `Store.bind`: record write. -/
def storeBind {L B : Type} (store : StoreRec L B) (addr : String)
    (v : Value L B) : StoreRec L B :=
  (addr, v) :: store

/-- `Store.lookup`; `none` models the `not populated` throw. -/
def storeLookup {L B : Type} : StoreRec L B → String → Option (Value L B)
  | [], _ => none
  | (a, v) :: rest, addr => if a = addr then some v else storeLookup rest addr

/-- `State<T>` from src/src/ceskm.ts. -/
structure MState (L B : Type) where
  control : Cbpv L
  environment : EnvRec L
  store : StoreRec L B
  kontinuation : Continuation L B
  meta : List (Continuation L B)

/-- The machine's hooks: the virtual methods `literal` and `op` of class
`CESKM<Base>`, plus `typeofBoolean`, which models the JavaScript runtime
check `"boolean" === typeof v` (and the coercion of the passing payload to
a boolean) on the opaque base type. -/
structure CESKM (L B : Type) where
  literal : L → Except Err (Value L B)
  op : String → List (Value L B) → Except Err (Value L B)
  typeofBoolean : B → Option Bool

/-- `CESKM.gensym`: the address string minted when `gensymCount = n`. -/
def gensym (n : Nat) : String :=
  "#sym<" ++ Nat.repr n ++ ">"

/-! ### Injectivity of `gensym`

`Nat.repr` renders the counter in decimal; no two counter values give the
same address.  We prove this by relating `Nat.toDigitsCore` to a simple
digit-list function and reading the number back off the digit list. -/

/-- Decimal digit list of `n`, most significant first. -/
def natDigits (n : Nat) : List Char :=
  if _h : n < 10 then [Nat.digitChar n]
  else natDigits (n / 10) ++ [Nat.digitChar (n % 10)]
termination_by n
decreasing_by
  exact Nat.div_lt_self (by omega) (by omega)

/-- Numeric value of a decimal digit character, as a partial inverse of
`Nat.digitChar` on digits below 10. -/
def charVal (c : Char) : Nat :=
  if c = '0' then 0 else
  if c = '1' then 1 else
  if c = '2' then 2 else
  if c = '3' then 3 else
  if c = '4' then 4 else
  if c = '5' then 5 else
  if c = '6' then 6 else
  if c = '7' then 7 else
  if c = '8' then 8 else
  if c = '9' then 9 else 0

/-- Reads a digit list back into a number. -/
def listVal (cs : List Char) : Nat :=
  cs.foldl (fun a c => 10 * a + charVal c) 0

/-! ### The evaluator -/

mutual
/-- `CESKM.positive` (src/src/ceskm.ts lines 583-619): reduces a positive
term to a value.  The `while` loop only re-enters on `Suspend` of a positive
term, embedded here as structural recursion. -/
def positive {L B : Type} (M : CESKM L B) :
    Cbpv L → EnvRec L → StoreRec L B → Except Err (Value L B)
  | .lit v, _, _ => M.literal v
  | .sym s, env, store =>
      if s = "_" then .ok (.kont .top)
      else
        match recLookup env s with
        | none => .error (.unboundSymbol s)
        | some (.inl addr) =>
            match storeLookup store addr with
            | none => .error (.unboundAddress addr)
            | some v => .ok v
        | some (.inr defn) => .ok (closure defn env)
  | .suspend exp, env, store =>
      if cbpv_is_positive exp then positive M exp env store
      else .ok (closure exp env)
  | .op o erands, env, store =>
      match positiveList M erands env store with
      | .error e => .error e
      | .ok vs => M.op o vs
  | _, _, _ => .error .invalidPositive

/-- The `erands.map(...)` evaluation used by the `Op` case of `positive`
and by `step` at `Apply`: operands are evaluated left to right. -/
def positiveList {L B : Type} (M : CESKM L B) :
    List (Cbpv L) → EnvRec L → StoreRec L B → Except Err (List (Value L B))
  | [], _, _ => .ok []
  | e :: rest, env, store =>
      match positive M e env store with
      | .error err => .error err
      | .ok v =>
          match positiveList M rest env store with
          | .error err => .error err
          | .ok vs => .ok (v :: vs)
end

/-- One result of `step`/`continue`: a successor `State` (`done: false`) or a
terminal `Value` (`done: true`). -/
inductive StepRes (L B : Type) where
  | more (s : MState L B)
  | halt (v : Value L B)

/-- Result of a machine routine together with machine-level effects.
`err` models a thrown exception, `spin` is fuel exhaustion of the `continue`
loop.  `meta` is the caller-visible contents of the meta-stack array when
the routine exits (the source mutates the caller's array in place, so this
is observable even when an exception is thrown), and `ctr` is the final
`gensymCount`. -/
inductive CRes (L B : Type) where
  | ok (r : StepRes L B)
  | err (e : Err)
  | spin

structure COut (L B : Type) where
  res : CRes L B
  meta : List (Continuation L B)
  ctr : Nat

/-- The shared shape of the binding loops in the `Abstract` step and the
`Let`-frame destructuring arm of `continue`: for each name in order, mint a
fresh address, bind the name to it in the environment and write the matching
value (JavaScript `undefined` when the value list is too short) to the
store. -/
def bindMany {L B : Type} :
    List String → List (Value L B) → EnvRec L → StoreRec L B → Nat →
      EnvRec L × StoreRec L B × Nat
  | [], _, env, store, ctr => (env, store, ctr)
  | n :: ns, vs, env, store, ctr =>
      bindMany ns vs.tail (recBind env n (.inl (gensym ctr)))
        (storeBind store (gensym ctr) (vs.headD .undef)) (ctr + 1)

/-- `CESKM.continue` (src/src/ceskm.ts lines 639-693), with explicit fuel
for its `while` loop.

* `Args` frame: the delivered value must wrap a continuation (else the
  `expected continuation` throw — after the successor has already been
  pushed onto the meta-stack); the loop re-enters with the delivered
  continuation as the current one and the reified `Args` frame itself as
  the value being delivered.
* `Let` frame: if the value wraps an `Args` frame its operand list is
  destructured across the binder names; otherwise a single fresh address
  receives the value under binder `_let[0]` (JavaScript turns the missing
  `_let[0]` of an empty binder list into the property key `"undefined"`).
* `Top`: halt if the meta-stack is empty, else pop it and re-enter. -/
def continueV {L B : Type} :
    Nat → Value L B → Continuation L B → StoreRec L B →
      List (Continuation L B) → Nat → COut L B
  | 0, _, _, _, meta, ctr => ⟨.spin, meta, ctr⟩
  | fuel + 1, value, kont, store, meta, ctr =>
      match kont with
      | .args vs k1 =>
          match value with
          | .kont k2 => continueV fuel (.kont (.args vs k1)) k2 store (k1 :: meta) ctr
          | _ => ⟨.err .expectedContinuation, k1 :: meta, ctr⟩
      | .letk names body env k1 =>
          match value with
          | .kont (.args vargs _) =>
              match bindMany names vargs env store ctr with
              | (env1, store1, ctr1) =>
                  ⟨.ok (.more ⟨body, env1, store1, k1, meta⟩), meta, ctr1⟩
          | _ =>
              ⟨.ok (.more ⟨body, recBind env (names.headD "undefined")
                  (.inl (gensym ctr)),
                storeBind store (gensym ctr) value, k1, meta⟩), meta, ctr + 1⟩
      | .top =>
          match meta with
          | [] => ⟨.ok (.halt value), meta, ctr⟩
          | k :: rest => continueV fuel value k store rest ctr

/-- `CESKM.step` (src/src/ceskm.ts lines 454-568).  The `while` loop
re-enters only on `Apply`, `Let` and `Letrec`, each of which recurses on a
subterm of the control; every other branch returns.  The `fuel` argument is
only passed through to `continueV`. -/
def stepGo {L B : Type} (M : CESKM L B) (fuel : Nat) :
    Cbpv L → EnvRec L → StoreRec L B → Continuation L B →
      List (Continuation L B) → Nat → COut L B
  | .apply opTerm erands, env, store, kont, meta, ctr =>
      match positiveList M erands env store with
      | .error e => ⟨.err e, meta, ctr⟩
      | .ok vs => stepGo M fuel opTerm env store (.args vs kont) meta ctr
  | .letE names exp body, env, store, kont, meta, ctr =>
      stepGo M fuel exp env store (.letk names body env kont) meta ctr
  | .letrec bindings body, env, store, kont, meta, ctr =>
      stepGo M fuel body
        (bindings.foldl (fun e nd => recBind e nd.1 (.inr nd.2)) env)
        store kont meta ctr
  | .shiftE karg body, env, store, kont, meta, ctr =>
      ⟨.ok (.more ⟨body, recBind env karg (.inl (gensym ctr)),
        storeBind store (gensym ctr) (.kont kont), .top, meta⟩), meta, ctr + 1⟩
  | .reset exp, env, store, kont, meta, ctr =>
      ⟨.ok (.more ⟨exp, env, store, .top, kont :: meta⟩), kont :: meta, ctr⟩
  | .ifE c t e, env, store, kont, meta, ctr =>
      match positive M c env store with
      | .error er => ⟨.err er, meta, ctr⟩
      | .ok (.scalar b) =>
          match M.typeofBoolean b with
          | some bv =>
              ⟨.ok (.more ⟨bif bv then t else e, env, store, kont, meta⟩),
                meta, ctr⟩
          | none => ⟨.err .ifRequiresBool, meta, ctr⟩
      | .ok _ => ⟨.err .ifRequiresBool, meta, ctr⟩
  | .resume t, env, store, kont, meta, ctr =>
      match positive M t env store with
      | .error er => ⟨.err er, meta, ctr⟩
      | .ok (.kont (.letk _names body env1 _k1)) =>
          ⟨.ok (.more ⟨body, env1, store, kont, meta⟩), meta, ctr⟩
      | .ok v => continueV fuel v kont store meta ctr
  | .abstract argNames body, env, store, kont, meta, ctr =>
      match kont with
      | .args vals k1 =>
          match bindMany argNames vals env store ctr with
          | (env1, store1, ctr1) =>
              ⟨.ok (.more ⟨body, env1, store1, k1, meta⟩), meta, ctr1⟩
      | _ => ⟨.err .arityOrContext, meta, ctr⟩
  | ctl, env, store, kont, meta, ctr =>
      match positive M ctl env store with
      | .error e => ⟨.err e, meta, ctr⟩
      | .ok v => continueV fuel v kont store meta ctr

/-- `step` on a packaged `State`, threading the `gensymCount`. -/
def stepF {L B : Type} (M : CESKM L B) (fuel : Nat) (s : MState L B)
    (ctr : Nat) : COut L B :=
  stepGo M fuel s.control s.environment s.store s.kontinuation s.meta ctr

/-- `CESKM.inject` (src/src/ceskm.ts lines 704-712). -/
def inject {L B : Type} (t : Cbpv L) : MState L B :=
  ⟨t, [], [], .top, []⟩

/-- Machine configurations reachable from `inject t` on a fresh machine
(`gensymCount = 0`) by repeated non-terminal steps. -/
inductive Reach {L B : Type} (M : CESKM L B) (fuel : Nat) (t : Cbpv L) :
    MState L B → Nat → Prop where
  | init : Reach M fuel t (inject t) 0
  | next {s c s' m' c'} : Reach M fuel t s c →
      stepF M fuel s c = ⟨.ok (.more s'), m', c'⟩ → Reach M fuel t s' c'

/-- A concrete machine used to evaluate claims on concrete inputs: the
documented example subclass with `Base := boolean` — `literal` wraps the
payload as a scalar, `op` is the default always-failing implementation, and
every base payload is a runtime boolean. -/
def boolMachine : CESKM Bool Bool :=
  ⟨fun b => .ok (.scalar b), fun o _ => .error (.unknownOp o), fun b => some b⟩

/-! ### Store well-formedness and growth -/

/-- Every address bound in the store was minted by `gensym` at a counter
value below `c`. -/
def StoreWF {L B : Type} (store : StoreRec L B) (c : Nat) : Prop :=
  ∀ a v, storeLookup store a = some v → ∃ i, i < c ∧ a = gensym i

/-- `store'` (at counter `c'`) extends `store` (at counter `c`): the counter
does not decrease, every existing binding is still visible unchanged, and
every other visible binding lives at an address minted at a counter value in
`[c, c')`. -/
def Extends {L B : Type} (store store' : StoreRec L B) (c c' : Nat) : Prop :=
  c ≤ c'
  ∧ (∀ a v, storeLookup store a = some v → storeLookup store' a = some v)
  ∧ (∀ a v, storeLookup store' a = some v →
      storeLookup store a = some v ∨ ∃ i, c ≤ i ∧ i < c' ∧ a = gensym i)

/-- Is the value a wrapped continuation (`"k" in value`)? -/
def Value.isKont {L B : Type} : Value L B → Bool
  | .kont _ => true
  | _ => false

/-- Is the value a wrapped `Args` frame (`"k" in value && value.k instanceof
Args`)? -/
def Value.isArgsKont {L B : Type} : Value L B → Bool
  | .kont (.args _ _) => true
  | _ => false

/-! ### The JavaScript object model of `Env`

`Env.bind` (src/src/ceskm.ts lines 62-65) runs `this.env[name] = addrOrExpr`
and returns `this`: it mutates the record of the receiver object in place
and hands back the same reference.  To express this aliasing we model a heap
of environment records indexed by object reference. -/

/-- A heap of `Env` objects; the index is the object reference. -/
abbrev EnvHeap (L : Type) := List (EnvRec L)

/-- The record held by the object at reference `r`. -/
def heapRec {L : Type} (h : EnvHeap L) (r : Nat) : EnvRec L :=
  (h[r]?).getD []

/-- `Env.lookup` through a reference. -/
def heapLookup {L : Type} (h : EnvHeap L) (r : Nat) (name : String) :
    Option (AddrOrExpr L) :=
  recLookup (heapRec h r) name

/-- `Env.bind` on the object at reference `r`: the record of that object is
updated in place and the method returns `this` — the same reference. -/
def heapBind {L : Type} (h : EnvHeap L) (r : Nat) (name : String)
    (v : AddrOrExpr L) : EnvHeap L × Nat :=
  (List.set h r (recBind (heapRec h r) name v), r)

/-! ### Injectivity of the `gensym` address stream -/

theorem charVal_digitChar {d : Nat} (h : d < 10) :
    charVal (Nat.digitChar d) = d := by
  interval_cases d <;> rfl

theorem listVal_append_singleton (cs : List Char) (c : Char) :
    listVal (cs ++ [c]) = 10 * listVal cs + charVal c := by
  simp [listVal, List.foldl_append]

theorem listVal_natDigits (n : Nat) : listVal (natDigits n) = n := by
  induction n using Nat.strong_induction_on with
  | _ n ih =>
    by_cases h : n < 10
    · rw [natDigits, dif_pos h]
      simp [listVal, charVal_digitChar h]
    · rw [natDigits, dif_neg h]
      rw [listVal_append_singleton]
      rw [ih (n / 10) (Nat.div_lt_self (by omega) (by omega))]
      rw [charVal_digitChar (Nat.mod_lt _ (by omega))]
      omega

theorem natDigits_injective : Function.Injective natDigits := by
  intro a b h
  have := listVal_natDigits a
  rw [h, listVal_natDigits] at this
  omega

theorem toDigitsCore_eq_natDigits :
    ∀ (fuel n : Nat) (ds : List Char), n < fuel →
      Nat.toDigitsCore 10 fuel n ds = natDigits n ++ ds := by
  intro fuel
  induction fuel with
  | zero => intro n ds h; omega
  | succ f ih =>
    intro n ds h
    simp only [Nat.toDigitsCore]
    by_cases h10 : n / 10 = 0
    · have hn : n < 10 := (Nat.div_eq_zero_iff (by omega)).mp h10
      rw [if_pos h10, natDigits, dif_pos hn]
      rw [Nat.mod_eq_of_lt hn]
      rfl
    · have hge : 10 ≤ n := by
        by_contra hc
        exact h10 ((Nat.div_eq_zero_iff (by omega)).mpr (by omega))
      have hlt : n / 10 < f := by
        have h1 : n / 10 < n := Nat.div_lt_self (by omega) (by omega)
        omega
      rw [if_neg h10, ih (n / 10) (Nat.digitChar (n % 10) :: ds) hlt]
      conv_rhs => rw [natDigits]
      rw [dif_neg (by omega)]
      simp

theorem natRepr_eq (n : Nat) : Nat.repr n = (natDigits n).asString := by
  show (Nat.toDigits 10 n).asString = (natDigits n).asString
  rw [Nat.toDigits, toDigitsCore_eq_natDigits (n + 1) n [] (by omega)]
  simp

theorem natRepr_injective : Function.Injective Nat.repr := by
  intro a b h
  rw [natRepr_eq, natRepr_eq, List.asString_inj] at h
  exact natDigits_injective h

theorem gensym_injective : Function.Injective gensym := by
  intro a b h
  apply natRepr_injective
  unfold gensym at h
  have h2 := congrArg String.data h
  simp only [String.data_append, List.append_assoc] at h2
  have h3 := List.append_cancel_left h2
  have h4 := List.append_cancel_right h3
  exact String.ext h4

theorem extends_refl {L B : Type} (store : StoreRec L B) (c : Nat) :
    Extends store store c c :=
  ⟨Nat.le_refl c, fun _ _ h => h, fun _ _ h => Or.inl h⟩

theorem extends_trans {L B : Type} {s1 s2 s3 : StoreRec L B} {c1 c2 c3 : Nat}
    (h12 : Extends s1 s2 c1 c2) (h23 : Extends s2 s3 c2 c3) :
    Extends s1 s3 c1 c3 := by
  obtain ⟨hle12, hpres12, hnew12⟩ := h12
  obtain ⟨hle23, hpres23, hnew23⟩ := h23
  refine ⟨Nat.le_trans hle12 hle23, fun a v h => hpres23 a v (hpres12 a v h), ?_⟩
  intro a v h
  rcases hnew23 a v h with h2 | ⟨i, hi1, hi2, hi3⟩
  · rcases hnew12 a v h2 with h1 | ⟨i, hi1, hi2, hi3⟩
    · exact Or.inl h1
    · exact Or.inr ⟨i, hi1, Nat.lt_of_lt_of_le hi2 hle23, hi3⟩
  · exact Or.inr ⟨i, Nat.le_trans hle12 hi1, hi2, hi3⟩

theorem storeWF_of_extends {L B : Type} {store store' : StoreRec L B}
    {c c' : Nat} (hwf : StoreWF store c) (hext : Extends store store' c c') :
    StoreWF store' c' := by
  intro a v h
  rcases hext.2.2 a v h with h1 | ⟨i, _, hi2, hi3⟩
  · obtain ⟨i, hi, ha⟩ := hwf a v h1
    exact ⟨i, Nat.lt_of_lt_of_le hi hext.1, ha⟩
  · exact ⟨i, hi2, hi3⟩

/-- A well-formed store has nothing at any address minted at or above the
current counter. -/
theorem storeWF_fresh {L B : Type} {store : StoreRec L B} {c : Nat}
    (hwf : StoreWF store c) {i : Nat} (hi : c ≤ i) :
    storeLookup store (gensym i) = none := by
  cases h : storeLookup store (gensym i) with
  | none => rfl
  | some v =>
    obtain ⟨j, hj, ha⟩ := hwf _ v h
    have := gensym_injective ha
    omega

theorem storeLookup_bind {L B : Type} (store : StoreRec L B) (a a' : String)
    (v : Value L B) :
    storeLookup (storeBind store a v) a'
      = if a = a' then some v else storeLookup store a' := rfl

/-- Writing at the freshly minted address extends the store. -/
theorem extends_bind_fresh {L B : Type} {store : StoreRec L B} {c : Nat}
    (hwf : StoreWF store c) (v : Value L B) :
    Extends store (storeBind store (gensym c) v) c (c + 1) := by
  refine ⟨Nat.le_succ c, ?_, ?_⟩
  · intro a w h
    rw [storeLookup_bind]
    split
    · next heq =>
      rw [← heq] at h
      rw [storeWF_fresh hwf (Nat.le_refl c)] at h
      cases h
    · exact h
  · intro a w h
    rw [storeLookup_bind] at h
    revert h
    split
    · next heq =>
      intro h
      exact Or.inr ⟨c, Nat.le_refl c, Nat.lt_succ_self c, heq.symm⟩
    · intro h
      exact Or.inl h

/-- `bindMany` extends the store, one fresh address per name. -/
theorem bindMany_extends {L B : Type} :
    ∀ (ns : List String) (vs : List (Value L B)) (env : EnvRec L)
      (store : StoreRec L B) (c : Nat), StoreWF store c →
      Extends store (bindMany ns vs env store c).2.1 c
          (bindMany ns vs env store c).2.2
      ∧ StoreWF (bindMany ns vs env store c).2.1 (bindMany ns vs env store c).2.2
  | [], vs, env, store, c, hwf => ⟨extends_refl store c, hwf⟩
  | n :: ns, vs, env, store, c, hwf => by
    have h1 := extends_bind_fresh hwf (vs.headD .undef)
    have hwf1 := storeWF_of_extends hwf h1
    have h2 := bindMany_extends ns vs.tail (recBind env n (.inl (gensym c)))
      (storeBind store (gensym c) (vs.headD .undef)) (c + 1) hwf1
    rw [bindMany]
    exact ⟨extends_trans h1 h2.1, h2.2⟩

/-! ### Branch equations

Definitional unfoldings of `continueV` and `stepGo`, one per source branch,
used throughout the proofs below. -/

theorem continueV_zero {L B : Type} (value : Value L B) (kont store meta c) :
    continueV 0 value kont store meta c = ⟨.spin, meta, c⟩ := rfl

theorem continueV_args_kont {L B : Type} (fuel : Nat) (vs : List (Value L B))
    (k1 k2 : Continuation L B) (store meta c) :
    continueV (fuel + 1) (.kont k2) (.args vs k1) store meta c
      = continueV fuel (.kont (.args vs k1)) k2 store (k1 :: meta) c := rfl

theorem continueV_args_scalar {L B : Type} (fuel : Nat) (b : B)
    (vs : List (Value L B)) (k1 : Continuation L B) (store meta c) :
    continueV (fuel + 1) (.scalar b) (.args vs k1) store meta c
      = ⟨.err .expectedContinuation, k1 :: meta, c⟩ := rfl

theorem continueV_args_undef {L B : Type} (fuel : Nat)
    (vs : List (Value L B)) (k1 : Continuation L B) (store meta c) :
    continueV (fuel + 1) (.undef) (.args vs k1) store meta c
      = ⟨.err .expectedContinuation, k1 :: meta, c⟩ := rfl

theorem continueV_letk_args {L B : Type} (fuel : Nat)
    (vargs : List (Value L B)) (knext : Continuation L B) (names body env k1)
    (store : StoreRec L B) (meta c) :
    continueV (fuel + 1) (.kont (.args vargs knext)) (.letk names body env k1)
        store meta c
      = ⟨.ok (.more ⟨body, (bindMany names vargs env store c).1,
          (bindMany names vargs env store c).2.1, k1, meta⟩), meta,
          (bindMany names vargs env store c).2.2⟩ := rfl

theorem continueV_letk_single {L B : Type} (fuel : Nat) (value : Value L B)
    (names body env k1) (store : StoreRec L B) (meta c)
    (h : value.isArgsKont = false) :
    continueV (fuel + 1) value (.letk names body env k1) store meta c
      = ⟨.ok (.more ⟨body, recBind env (names.headD "undefined")
          (.inl (gensym c)), storeBind store (gensym c) value, k1, meta⟩),
          meta, c + 1⟩ := by
  match value with
  | .scalar b => rfl
  | .undef => rfl
  | .kont .top => rfl
  | .kont (.letk a b c' d) => rfl
  | .kont (.args a b) => simp [Value.isArgsKont] at h

theorem continueV_top_nil {L B : Type} (fuel : Nat) (value : Value L B)
    (store c) :
    continueV (fuel + 1) value .top store [] c
      = ⟨.ok (.halt value), [], c⟩ := rfl

theorem continueV_top_cons {L B : Type} (fuel : Nat) (value : Value L B)
    (store : StoreRec L B) (k : Continuation L B) (rest c) :
    continueV (fuel + 1) value .top store (k :: rest) c
      = continueV fuel value k store rest c := rfl

/-- `continueV` only grows the store, and only at freshly minted
addresses. -/
theorem continueV_extends {L B : Type} :
    ∀ (fuel : Nat) (value : Value L B) (kont : Continuation L B)
      (store : StoreRec L B) (meta : List (Continuation L B)) (c : Nat),
      StoreWF store c →
      ∀ s' m' c', continueV fuel value kont store meta c = ⟨.ok (.more s'), m', c'⟩ →
        Extends store s'.store c c' ∧ StoreWF s'.store c' := by
  intro fuel
  induction fuel with
  | zero =>
    intro value kont store meta c _ s' m' c' h
    rw [continueV_zero] at h
    injection h with h1
    exact CRes.noConfusion h1
  | succ fuel ih =>
    intro value kont store meta c hwf s' m' c' h
    match kont with
    | .args vs k1 =>
      match value with
      | .kont k2 =>
        rw [continueV_args_kont] at h
        exact ih _ k2 store (k1 :: meta) c hwf s' m' c' h
      | .scalar b =>
        rw [continueV_args_scalar] at h
        injection h with h1
        exact CRes.noConfusion h1
      | .undef =>
        rw [continueV_args_undef] at h
        injection h with h1
        exact CRes.noConfusion h1
    | .letk names body env k1 =>
      have hsingle : ∀ value : Value L B, value.isArgsKont = false →
          continueV (fuel + 1) value (.letk names body env k1) store meta c
            = ⟨.ok (.more s'), m', c'⟩ →
          Extends store s'.store c c' ∧ StoreWF s'.store c' := by
        intro value hv h
        rw [continueV_letk_single fuel value names body env k1 store meta c hv]
          at h
        injection h with h1 h2 h3
        injection h1 with h4
        injection h4 with h5
        subst h5
        subst h3
        exact ⟨extends_bind_fresh hwf _,
          storeWF_of_extends hwf (extends_bind_fresh hwf _)⟩
      match value with
      | .kont (.args vargs knext) =>
        rw [continueV_letk_args] at h
        injection h with h1 h2 h3
        injection h1 with h4
        injection h4 with h5
        subst h5
        subst h3
        have hb := bindMany_extends names vargs env store c hwf
        exact hb
      | .kont .top => exact hsingle (.kont .top) rfl h
      | .kont (.letk a b c'' d) => exact hsingle (.kont (.letk a b c'' d)) rfl h
      | .scalar b => exact hsingle (.scalar b) rfl h
      | .undef => exact hsingle .undef rfl h
    | .top =>
      match meta with
      | [] =>
        rw [continueV_top_nil] at h
        injection h with h1
        injection h1 with h2
        exact StepRes.noConfusion h2
      | k :: rest =>
        rw [continueV_top_cons] at h
        exact ih value k store rest c hwf s' m' c' h

theorem stepGo_apply {L B : Type} (M : CESKM L B) (fuel opTerm erands env)
    (store : StoreRec L B) (kont meta c) :
    stepGo M fuel (.apply opTerm erands) env store kont meta c
      = match positiveList M erands env store with
        | .error e => ⟨.err e, meta, c⟩
        | .ok vs => stepGo M fuel opTerm env store (.args vs kont) meta c := rfl

theorem stepGo_letE {L B : Type} (M : CESKM L B) (fuel names exp body env)
    (store : StoreRec L B) (kont meta c) :
    stepGo M fuel (.letE names exp body) env store kont meta c
      = stepGo M fuel exp env store (.letk names body env kont) meta c := rfl

theorem stepGo_letrec {L B : Type} (M : CESKM L B) (fuel bindings body env)
    (store : StoreRec L B) (kont meta c) :
    stepGo M fuel (.letrec bindings body) env store kont meta c
      = stepGo M fuel body
          (bindings.foldl (fun e nd => recBind e nd.1 (.inr nd.2)) env)
          store kont meta c := rfl

theorem stepGo_shift {L B : Type} (M : CESKM L B) (fuel karg body env)
    (store : StoreRec L B) (kont meta c) :
    stepGo M fuel (.shiftE karg body) env store kont meta c
      = ⟨.ok (.more ⟨body, recBind env karg (.inl (gensym c)),
          storeBind store (gensym c) (.kont kont), .top, meta⟩),
          meta, c + 1⟩ := rfl

theorem stepGo_reset {L B : Type} (M : CESKM L B) (fuel exp env)
    (store : StoreRec L B) (kont meta c) :
    stepGo M fuel (.reset exp) env store kont meta c
      = ⟨.ok (.more ⟨exp, env, store, .top, kont :: meta⟩),
          kont :: meta, c⟩ := rfl

theorem stepGo_ifE {L B : Type} (M : CESKM L B) (fuel cc t e env)
    (store : StoreRec L B) (kont meta c) :
    stepGo M fuel (.ifE cc t e) env store kont meta c
      = match positive M cc env store with
        | .error er => ⟨.err er, meta, c⟩
        | .ok (.scalar b) =>
            match M.typeofBoolean b with
            | some bv =>
                ⟨.ok (.more ⟨bif bv then t else e, env, store, kont, meta⟩),
                  meta, c⟩
            | none => ⟨.err .ifRequiresBool, meta, c⟩
        | .ok _ => ⟨.err .ifRequiresBool, meta, c⟩ := rfl

theorem stepGo_resume {L B : Type} (M : CESKM L B) (fuel t env)
    (store : StoreRec L B) (kont meta c) :
    stepGo M fuel (.resume t) env store kont meta c
      = match positive M t env store with
        | .error er => ⟨.err er, meta, c⟩
        | .ok (.kont (.letk _names body env1 _k1)) =>
            ⟨.ok (.more ⟨body, env1, store, kont, meta⟩), meta, c⟩
        | .ok v => continueV fuel v kont store meta c := rfl

theorem stepGo_abstract_args {L B : Type} (M : CESKM L B) (fuel argNames body
    env) (store : StoreRec L B) (vals k1 meta c) :
    stepGo M fuel (.abstract argNames body) env store (.args vals k1) meta c
      = ⟨.ok (.more ⟨body, (bindMany argNames vals env store c).1,
          (bindMany argNames vals env store c).2.1, k1, meta⟩), meta,
          (bindMany argNames vals env store c).2.2⟩ := rfl

theorem stepGo_abstract_top {L B : Type} (M : CESKM L B) (fuel argNames body
    env) (store : StoreRec L B) (meta c) :
    stepGo M fuel (.abstract argNames body) env store .top meta c
      = ⟨.err .arityOrContext, meta, c⟩ := rfl

theorem stepGo_abstract_letk {L B : Type} (M : CESKM L B) (fuel argNames body
    env) (store : StoreRec L B) (names exp env1 k1 meta c) :
    stepGo M fuel (.abstract argNames body) env store
        (.letk names exp env1 k1) meta c
      = ⟨.err .arityOrContext, meta, c⟩ := rfl

theorem stepGo_lit {L B : Type} (M : CESKM L B) (fuel v env)
    (store : StoreRec L B) (kont meta c) :
    stepGo M fuel (.lit v) env store kont meta c
      = match positive M (.lit v) env store with
        | .error e => ⟨.err e, meta, c⟩
        | .ok val => continueV fuel val kont store meta c := rfl

theorem stepGo_sym {L B : Type} (M : CESKM L B) (fuel s env)
    (store : StoreRec L B) (kont meta c) :
    stepGo M fuel (.sym s) env store kont meta c
      = match positive M (.sym s) env store with
        | .error e => ⟨.err e, meta, c⟩
        | .ok val => continueV fuel val kont store meta c := rfl

theorem stepGo_op {L B : Type} (M : CESKM L B) (fuel o erands env)
    (store : StoreRec L B) (kont meta c) :
    stepGo M fuel (.op o erands) env store kont meta c
      = match positive M (.op o erands) env store with
        | .error e => ⟨.err e, meta, c⟩
        | .ok val => continueV fuel val kont store meta c := rfl

theorem stepGo_suspend {L B : Type} (M : CESKM L B) (fuel exp env)
    (store : StoreRec L B) (kont meta c) :
    stepGo M fuel (.suspend exp) env store kont meta c
      = match positive M (.suspend exp) env store with
        | .error e => ⟨.err e, meta, c⟩
        | .ok val => continueV fuel val kont store meta c := rfl

theorem cout_err_absurd {L B : Type} {e : Err} {m : List (Continuation L B)}
    {c : Nat} {s' : MState L B} {m' : List (Continuation L B)} {c' : Nat}
    (h : (⟨.err e, m, c⟩ : COut L B) = ⟨.ok (.more s'), m', c'⟩) : False := by
  injection h with h1
  exact CRes.noConfusion h1

theorem cout_more_inj {L B : Type} {s : MState L B}
    {m : List (Continuation L B)} {c : Nat} {s' : MState L B}
    {m' : List (Continuation L B)} {c' : Nat}
    (h : (⟨.ok (.more s), m, c⟩ : COut L B) = ⟨.ok (.more s'), m', c'⟩) :
    s = s' ∧ m = m' ∧ c = c' := by
  injection h with h1 h2 h3
  injection h1 with h4
  injection h4 with h5
  exact ⟨h5, h2, h3⟩

/-- `step` only grows the store, and only at freshly minted addresses. -/
theorem stepGo_extends {L B : Type} (M : CESKM L B) (fuel : Nat) :
    ∀ (ctl : Cbpv L) (env : EnvRec L) (store : StoreRec L B)
      (kont : Continuation L B) (meta : List (Continuation L B)) (c : Nat),
      StoreWF store c →
      ∀ s' m' c',
        stepGo M fuel ctl env store kont meta c = ⟨.ok (.more s'), m', c'⟩ →
        Extends store s'.store c c' ∧ StoreWF s'.store c'
  | .apply opTerm erands => by
    intro env store kont meta c hwf s' m' c' h
    rw [stepGo_apply] at h
    rcases hp : positiveList M erands env store with e | vs
    · rw [hp] at h
      exact (cout_err_absurd h).elim
    · rw [hp] at h
      exact stepGo_extends M fuel opTerm env store (.args vs kont) meta c hwf
        s' m' c' h
  | .letE names exp body => by
    intro env store kont meta c hwf s' m' c' h
    rw [stepGo_letE] at h
    exact stepGo_extends M fuel exp env store (.letk names body env kont)
      meta c hwf s' m' c' h
  | .letrec bindings body => by
    intro env store kont meta c hwf s' m' c' h
    rw [stepGo_letrec] at h
    exact stepGo_extends M fuel body _ store kont meta c hwf s' m' c' h
  | .shiftE karg body => by
    intro env store kont meta c hwf s' m' c' h
    rw [stepGo_shift] at h
    obtain ⟨hs, -, hc⟩ := cout_more_inj h
    subst hs
    subst hc
    exact ⟨extends_bind_fresh hwf _,
      storeWF_of_extends hwf (extends_bind_fresh hwf _)⟩
  | .reset exp => by
    intro env store kont meta c hwf s' m' c' h
    rw [stepGo_reset] at h
    obtain ⟨hs, -, hc⟩ := cout_more_inj h
    subst hs
    subst hc
    exact ⟨extends_refl store c, hwf⟩
  | .ifE cc t e => by
    intro env store kont meta c hwf s' m' c' h
    rw [stepGo_ifE] at h
    rcases hp : positive M cc env store with er | v
    · rw [hp] at h
      exact (cout_err_absurd h).elim
    · rw [hp] at h
      match v with
      | .scalar b =>
        have h2 : (match M.typeofBoolean b with
            | some bv => (⟨.ok (.more ⟨bif bv then t else e, env, store, kont,
                meta⟩), meta, c⟩ : COut L B)
            | none => ⟨.err .ifRequiresBool, meta, c⟩)
            = (⟨.ok (.more s'), m', c'⟩ : COut L B) := h
        rcases ht : M.typeofBoolean b with - | bv
        · rw [ht] at h2
          exact (cout_err_absurd h2).elim
        · rw [ht] at h2
          obtain ⟨hs, -, hc⟩ := cout_more_inj h2
          subst hs
          subst hc
          exact ⟨extends_refl store c, hwf⟩
      | .kont k => exact (cout_err_absurd h).elim
      | .undef => exact (cout_err_absurd h).elim
  | .resume t => by
    intro env store kont meta c hwf s' m' c' h
    rw [stepGo_resume] at h
    rcases hp : positive M t env store with er | v
    · rw [hp] at h
      exact (cout_err_absurd h).elim
    · rw [hp] at h
      match v with
      | .kont (.letk names body env1 k1) =>
        obtain ⟨hs, -, hc⟩ := cout_more_inj h
        subst hs
        subst hc
        exact ⟨extends_refl store c, hwf⟩
      | .kont .top => exact continueV_extends fuel _ kont store meta c hwf s' m' c' h
      | .kont (.args a b) => exact continueV_extends fuel _ kont store meta c hwf s' m' c' h
      | .scalar b => exact continueV_extends fuel _ kont store meta c hwf s' m' c' h
      | .undef => exact continueV_extends fuel _ kont store meta c hwf s' m' c' h
  | .abstract argNames body => by
    intro env store kont meta c hwf s' m' c' h
    match kont with
    | .args vals k1 =>
      rw [stepGo_abstract_args] at h
      obtain ⟨hs, -, hc⟩ := cout_more_inj h
      subst hs
      subst hc
      exact bindMany_extends argNames vals env store c hwf
    | .top =>
      rw [stepGo_abstract_top] at h
      exact (cout_err_absurd h).elim
    | .letk a b c'' d =>
      rw [stepGo_abstract_letk] at h
      exact (cout_err_absurd h).elim
  | .lit v => by
    intro env store kont meta c hwf s' m' c' h
    rw [stepGo_lit] at h
    rcases hp : positive M (.lit v) env store with er | val
    · rw [hp] at h
      exact (cout_err_absurd h).elim
    · rw [hp] at h
      exact continueV_extends fuel val kont store meta c hwf s' m' c' h
  | .sym s => by
    intro env store kont meta c hwf s' m' c' h
    rw [stepGo_sym] at h
    rcases hp : positive M (.sym s) env store with er | val
    · rw [hp] at h
      exact (cout_err_absurd h).elim
    · rw [hp] at h
      exact continueV_extends fuel val kont store meta c hwf s' m' c' h
  | .op o erands => by
    intro env store kont meta c hwf s' m' c' h
    rw [stepGo_op] at h
    rcases hp : positive M (.op o erands) env store with er | val
    · rw [hp] at h
      exact (cout_err_absurd h).elim
    · rw [hp] at h
      exact continueV_extends fuel val kont store meta c hwf s' m' c' h
  | .suspend exp => by
    intro env store kont meta c hwf s' m' c' h
    rw [stepGo_suspend] at h
    rcases hp : positive M (.suspend exp) env store with er | val
    · rw [hp] at h
      exact (cout_err_absurd h).elim
    · rw [hp] at h
      exact continueV_extends fuel val kont store meta c hwf s' m' c' h

/-- Every reachable configuration has a well-formed store. -/
theorem reach_storeWF {L B : Type} {M : CESKM L B} {fuel : Nat} {t : Cbpv L}
    {s : MState L B} {c : Nat} (hr : Reach M fuel t s c) :
    StoreWF s.store c := by
  induction hr with
  | init =>
    intro a v h
    exact Option.noConfusion h
  | next hr hstep ih =>
    next s c s' m' c' =>
    exact (stepGo_extends M fuel s.control s.environment s.store
      s.kontinuation s.meta c ih s' m' c' hstep).2

theorem recLookup_bind {L : Type} (env : EnvRec L) (n m : String)
    (v : AddrOrExpr L) :
    recLookup (recBind env n v) m
      = if n = m then some v else recLookup env m := rfl

/-! ### Claims -/

/-- C1 counterexample: delivering `KontVal(Top)` to the frame
`Arg([true], Top)` with an empty meta-stack makes the machine halt with the
reified `Arg` frame itself as the final value, not with `v₁ = true`; so after
the annihilation the value being delivered is the wrapped `Arg` frame, not
the first operand. -/
theorem c1_counterexample :
    continueV 5 (Value.kont .top)
        (Continuation.args [Value.scalar true] .top)
        ([] : StoreRec Bool Bool) [] 0
      = ⟨.ok (.halt (.kont (.args [.scalar true] .top))), [], 0⟩
    ∧ ∀ b : Bool,
        (continueV 5 (Value.kont .top)
          (Continuation.args [Value.scalar true] .top)
          ([] : StoreRec Bool Bool) [] 0).res
        ≠ .ok (.halt (.scalar b)) := by
  refine ⟨rfl, fun b h => ?_⟩
  have h2 : (CRes.ok (.halt (.kont (.args [Value.scalar true] .top)))
      : CRes Bool Bool) = .ok (.halt (.scalar b)) := h
  injection h2 with h3
  injection h3 with h4
  exact Value.noConfusion h4

/-- C1 (amended): when `continue` delivers a value to an `Arg([v₁…vₙ], K')`
frame, the delivered value must be a `KontVal(k'')` (a scalar raises
ExpectedContinuation, after the successor `K'` has been pushed onto the
meta-stack); on success the meta-stack is pushed with `K'` and the loop
continues with `k''` as the current continuation and with the reified frame
`KontVal(Arg([v₁…vₙ], K'))` — not `v₁` — as the value being delivered. -/
theorem c1_arg_delivery {L B : Type} (fuel : Nat) (vs : List (Value L B))
    (k1 k2 : Continuation L B) (store : StoreRec L B)
    (meta : List (Continuation L B)) (c : Nat) (b : B) :
    continueV (fuel + 1) (.kont k2) (.args vs k1) store meta c
      = continueV fuel (.kont (.args vs k1)) k2 store (k1 :: meta) c
    ∧ continueV (fuel + 1) (.scalar b) (.args vs k1) store meta c
      = ⟨.err .expectedContinuation, k1 :: meta, c⟩ :=
  ⟨rfl, rfl⟩

/-- C2 counterexample: delivering `val = KontVal(Arg([true], Top))` to the
one-binder frame `Let(["x"], body, [], Top)` writes the frame's first
operand `true` to the fresh address — not `val` itself, which is a
different value. -/
theorem c2_counterexample :
    continueV 1 (Value.kont (.args [Value.scalar true] .top))
        (Continuation.letk ["x"] (Cbpv.lit true) [] .top)
        ([] : StoreRec Bool Bool) [] 0
      = ⟨.ok (.more ⟨Cbpv.lit true, [("x", .inl (gensym 0))],
          [(gensym 0, Value.scalar true)], .top, []⟩), [], 1⟩
    ∧ (Value.scalar true : Value Bool Bool)
        ≠ .kont (.args [Value.scalar true] .top) :=
  ⟨rfl, fun h => Value.noConfusion h⟩

/-- C2 (amended): delivering `val` to a `Let` frame with exactly one binder
allocates one fresh address, binds the name to it in the frame's captured
environment, and returns the state `(body, env', store', K', meta)`; the
address receives `val` itself only when `val` is not a `KontVal` wrapping an
`Args` frame — when `val = KontVal(Arg(ws, K))` the address receives `ws[0]`
(JavaScript `undefined` when `ws` is empty) instead. -/
theorem c2_let_single {L B : Type} (fuel : Nat) (x : String) (body : Cbpv L)
    (env : EnvRec L) (k1 : Continuation L B) (store : StoreRec L B)
    (meta : List (Continuation L B)) (c : Nat) (value : Value L B)
    (h : value.isArgsKont = false) :
    continueV (fuel + 1) value (.letk [x] body env k1) store meta c
      = ⟨.ok (.more ⟨body, recBind env x (.inl (gensym c)),
          storeBind store (gensym c) value, k1, meta⟩), meta, c + 1⟩
    ∧ ∀ (ws : List (Value L B)) (k : Continuation L B),
        continueV (fuel + 1) (.kont (.args ws k)) (.letk [x] body env k1)
            store meta c
          = ⟨.ok (.more ⟨body, recBind env x (.inl (gensym c)),
              storeBind store (gensym c) (ws.headD .undef), k1, meta⟩),
              meta, c + 1⟩ := by
  constructor
  · exact continueV_letk_single fuel value [x] body env k1 store meta c h
  · intro ws k
    rw [continueV_letk_args]
    rfl

/-- C2 witness: a scalar delivered to a one-binder `Let` frame is written to
the store unchanged. -/
theorem c2_witness :
    continueV 1 (Value.scalar false)
        (Continuation.letk ["x"] (Cbpv.lit true) [] .top)
        ([] : StoreRec Bool Bool) [] 0
      = ⟨.ok (.more ⟨Cbpv.lit true, [("x", .inl (gensym 0))],
          [(gensym 0, Value.scalar false)], .top, []⟩), [], 1⟩ :=
  (c2_let_single 0 "x" (Cbpv.lit true) [] .top [] [] 0 (Value.scalar false)
    rfl).1

/-- C3 counterexample: on a heap holding one environment object that binds
`x` to address `a`, calling `bind` with `x ↦ b` returns the same reference,
and looking `x` up through the PRIOR reference now yields `b`, not `a`:
`Env.bind` mutates the receiver instead of producing a fresh environment. -/
theorem c3_counterexample :
    heapLookup ([[("x", Sum.inl "a")]] : EnvHeap Bool) 0 "x"
        = some (.inl "a")
    ∧ (heapBind ([[("x", Sum.inl "a")]] : EnvHeap Bool) 0 "x" (.inl "b")).2
        = 0
    ∧ heapLookup
        (heapBind ([[("x", Sum.inl "a")]] : EnvHeap Bool) 0 "x"
          (.inl "b")).1 0 "x"
        = some (.inl "b")
    ∧ some (Sum.inl "b" : AddrOrExpr Bool) ≠ some (.inl "a") := by
  refine ⟨rfl, rfl, rfl, fun h => ?_⟩
  injection h with h1
  injection h1 with h2
  exact absurd h2 (by decide)

/-- C3 (amended): `Env.bind` updates the receiver in place and returns the
same reference: the bound name afterwards resolves to the new value through
the prior reference as well, while every other name resolves exactly as
before through every reference. -/
theorem c3_bind_in_place {L : Type} (h : EnvHeap L) (r : Nat) (n : String)
    (v : AddrOrExpr L) (hr : r < h.length) :
    (heapBind h r n v).2 = r
    ∧ heapLookup (heapBind h r n v).1 r n = some v
    ∧ ∀ m, m ≠ n → ∀ r',
        heapLookup (heapBind h r n v).1 r' m = heapLookup h r' m := by
  refine ⟨rfl, ?_, ?_⟩
  · show recLookup (heapRec (List.set h r (recBind (heapRec h r) n v)) r) n
        = some v
    unfold heapRec
    rw [List.getElem?_set_self hr]
    simp only [Option.getD_some]
    rw [recLookup_bind, if_pos rfl]
  · intro m hm r'
    by_cases hr' : r' = r
    · subst hr'
      show recLookup (heapRec (List.set h r' (recBind (heapRec h r') n v)) r')
          m = recLookup (heapRec h r') m
      unfold heapRec
      rw [List.getElem?_set_self (by omega)]
      simp only [Option.getD_some]
      rw [recLookup_bind, if_neg (fun hh => hm hh.symm)]
    · show recLookup (heapRec (List.set h r (recBind (heapRec h r) n v)) r')
          m = recLookup (heapRec h r') m
      unfold heapRec
      rw [List.getElem?_set_ne (fun hh => hr' hh.symm)]

/-- C3 witness: binding a fresh name through a reference and looking up an
unrelated name through the same reference is unchanged. -/
theorem c3_witness :
    (heapBind ([[("y", Sum.inl "a")]] : EnvHeap Bool) 0 "x" (.inl "b")).2 = 0
    ∧ heapLookup
        (heapBind ([[("y", Sum.inl "a")]] : EnvHeap Bool) 0 "x"
          (.inl "b")).1 0 "x" = some (.inl "b")
    ∧ heapLookup
        (heapBind ([[("y", Sum.inl "a")]] : EnvHeap Bool) 0 "x"
          (.inl "b")).1 0 "y" = some (.inl "a") := by
  have h := c3_bind_in_place ([[("y", Sum.inl "a")]] : EnvHeap Bool) 0 "x"
    (.inl "b") (by decide)
  exact ⟨h.1, h.2.1, by
    have h2 := h.2.2 "y" (by decide) 0
    rw [h2]
    rfl⟩

/-- C4 counterexample: `Resume` of a value wrapping the NON-closure frame
`Let(["x"], body, env', K)` (non-empty binder list) does not delegate to
`continue`; the source jumps for any `Let` frame, yielding the state
`(body, env', …)`, while delegation would have halted returning the value
itself. -/
theorem c4_counterexample :
    stepGo boolMachine 3 (.resume (.sym "f")) [("f", Sum.inl "a")]
        [("a", Value.kont (.letk ["x"] (.lit true) [] .top))] .top [] 0
      = ⟨.ok (.more ⟨.lit true, [],
          [("a", Value.kont (.letk ["x"] (.lit true) [] .top))], .top, []⟩),
          [], 0⟩
    ∧ (stepGo boolMachine 3 (.resume (.sym "f")) [("f", Sum.inl "a")]
        [("a", Value.kont (.letk ["x"] (.lit true) [] .top))] .top [] 0).res
      ≠ (continueV 3 (Value.kont (.letk ["x"] (.lit true) [] .top)) .top
          [("a", Value.kont (.letk ["x"] (.lit true) [] .top))] [] 0).res := by
  refine ⟨rfl, fun h => ?_⟩
  have h2 : (CRes.ok (.more (⟨.lit true, [],
      [("a", Value.kont (.letk ["x"] (.lit true) [] .top))], .top, []⟩
        : MState Bool Bool)))
      = .ok (.halt (.kont (.letk ["x"] (.lit true) [] .top))) := h
  injection h2 with h3
  exact StepRes.noConfusion h3

/-- C4 (amended): `step` at `Resume(t)` evaluates `t` via `positive`; if the
result wraps ANY `Let` frame — whatever its binder list — control becomes
the frame's body and the environment the frame's captured environment;
every other value is delegated to `continue(val, K, store, meta)`. -/
theorem c4_resume {L B : Type} (M : CESKM L B) (fuel : Nat) (t : Cbpv L)
    (env : EnvRec L) (store : StoreRec L B) (kont : Continuation L B)
    (meta : List (Continuation L B)) (c : Nat) :
    (∀ names body env1 k1,
      positive M t env store = .ok (.kont (.letk names body env1 k1)) →
      stepGo M fuel (.resume t) env store kont meta c
        = ⟨.ok (.more ⟨body, env1, store, kont, meta⟩), meta, c⟩)
    ∧ (∀ v, positive M t env store = .ok v →
        (∀ names body env1 k1, v ≠ .kont (.letk names body env1 k1)) →
        stepGo M fuel (.resume t) env store kont meta c
          = continueV fuel v kont store meta c) := by
  constructor
  · intro names body env1 k1 hp
    rw [stepGo_resume, hp]
  · intro v hp hv
    rw [stepGo_resume, hp]
    match v with
    | .scalar b => rfl
    | .undef => rfl
    | .kont .top => rfl
    | .kont (.args a b) => rfl
    | .kont (.letk a b c' d) => exact absurd rfl (hv a b c' d)

/-- C4 witness: a wrapped one-binder `Let` frame makes `Resume` jump, and a
scalar makes it delegate to `continue`. -/
theorem c4_witness :
    stepGo boolMachine 3 (.resume (.sym "f")) [("f", Sum.inl "a")]
        [("a", Value.kont (.letk ["x"] (.lit true) [] .top))] .top [] 0
      = ⟨.ok (.more ⟨.lit true, [],
          [("a", Value.kont (.letk ["x"] (.lit true) [] .top))], .top, []⟩),
          [], 0⟩
    ∧ stepGo boolMachine 3 (.resume (.sym "s")) [("s", Sum.inl "b")]
        [("b", Value.scalar true)] .top [] 0
      = continueV 3 (Value.scalar true) .top [("b", Value.scalar true)]
          [] 0 :=
  ⟨(c4_resume boolMachine 3 (.sym "f") [("f", Sum.inl "a")]
      [("a", Value.kont (.letk ["x"] (.lit true) [] .top))] .top [] 0).1
      ["x"] (.lit true) [] .top rfl,
   (c4_resume boolMachine 3 (.sym "s") [("s", Sum.inl "b")]
      [("b", Value.scalar true)] .top [] 0).2 (Value.scalar true) rfl
      (fun _ _ _ _ h => Value.noConfusion h)⟩

/-- C5: `step` at `Shift(k, body)` yields a non-terminal state in which the
freshly minted address `gensym c` is bound to `k` in the environment, the
store is extended with `KontVal(K)` at that address, control is `body`, the
continuation is `Top` and the meta-stack is unchanged; and under the run
invariant the minted address is indeed unbound in the incoming store. -/
theorem c5_shift_captures {L B : Type} (M : CESKM L B) (fuel : Nat)
    (karg : String) (body : Cbpv L) (env : EnvRec L) (store : StoreRec L B)
    (kont : Continuation L B) (meta : List (Continuation L B)) (c : Nat) :
    stepGo M fuel (.shiftE karg body) env store kont meta c
      = ⟨.ok (.more ⟨body, recBind env karg (.inl (gensym c)),
          storeBind store (gensym c) (.kont kont), .top, meta⟩),
          meta, c + 1⟩
    ∧ (StoreWF store c → storeLookup store (gensym c) = none) :=
  ⟨stepGo_shift M fuel karg body env store kont meta c,
   fun hwf => storeWF_fresh hwf (Nat.le_refl c)⟩

/-- C5 witness: the `Shift` transition on the empty store. -/
theorem c5_witness :
    stepGo boolMachine 1 (.shiftE "k" (.lit true)) []
        ([] : StoreRec Bool Bool) .top [] 0
      = ⟨.ok (.more ⟨.lit true, [("k", .inl (gensym 0))],
          [(gensym 0, Value.kont .top)], .top, []⟩), [], 1⟩
    ∧ storeLookup ([] : StoreRec Bool Bool) (gensym 0) = none :=
  ⟨(c5_shift_captures boolMachine 1 "k" (.lit true) [] [] .top [] 0).1,
   (c5_shift_captures boolMachine 1 "k" (.lit true) [] [] .top [] 0).2
     (fun _ _ h => Option.noConfusion h)⟩

/-- C6: along any run from `inject t` on a fresh machine, a non-terminal
step only extends the store: every binding visible before the step is
visible unchanged after it, and every binding visible after it either was
already present or sits at an address that was unbound before. -/
theorem c6_store_append_only {L B : Type} (M : CESKM L B) (fuel : Nat)
    (t : Cbpv L) (s : MState L B) (c : Nat) (s' : MState L B)
    (m' : List (Continuation L B)) (c' : Nat)
    (hr : Reach M fuel t s c)
    (hstep : stepF M fuel s c = ⟨.ok (.more s'), m', c'⟩) :
    (∀ a v, storeLookup s.store a = some v → storeLookup s'.store a = some v)
    ∧ (∀ a v, storeLookup s'.store a = some v →
        storeLookup s.store a = some v ∨ storeLookup s.store a = none) := by
  have hwf := reach_storeWF hr
  obtain ⟨hext, hwf'⟩ := stepGo_extends M fuel s.control s.environment
    s.store s.kontinuation s.meta c hwf s' m' c' hstep
  refine ⟨hext.2.1, ?_⟩
  intro a v h
  rcases hext.2.2 a v h with h1 | ⟨i, hi1, hi2, hi3⟩
  · exact Or.inl h1
  · right
    subst hi3
    exact storeWF_fresh hwf hi1

/-- C6 witness: the first step of `(shift k #t)` from the initial state
writes one binding into the empty store and keeps it intact. -/
theorem c6_witness :
    (∀ a v, storeLookup ([] : StoreRec Bool Bool) a = some v →
      storeLookup [(gensym 0, Value.kont .top)] a = some v)
    ∧ (∀ a v,
        storeLookup [(gensym 0, Value.kont (.top : Continuation Bool Bool))]
            a = some v →
        storeLookup ([] : StoreRec Bool Bool) a = some v
        ∨ storeLookup ([] : StoreRec Bool Bool) a = none) :=
  c6_store_append_only boolMachine 1 (.shiftE "k" (.lit true))
    (inject (.shiftE "k" (.lit true))) 0
    ⟨.lit true, [("k", Sum.inl (gensym 0))], [(gensym 0, Value.kont .top)],
      .top, []⟩ [] 1 Reach.init rfl

/-- C7: `step` at `If(c,t,e)` evaluates the condition via `positive`; when
that yields a value, a scalar passing the runtime boolean check branches
control to `t` (true) or `e` (false) leaving environment, store,
continuation and meta-stack unchanged, and the step yields the
IfRequiresBool error exactly when the value is not such a scalar boolean. -/
theorem c7_if_requires_bool {L B : Type} (M : CESKM L B) (fuel : Nat)
    (cc t e : Cbpv L) (env : EnvRec L) (store : StoreRec L B)
    (kont : Continuation L B) (meta : List (Continuation L B)) (c : Nat)
    (v : Value L B) (hp : positive M cc env store = .ok v) :
    (∀ b bv, v = .scalar b → M.typeofBoolean b = some bv →
      stepGo M fuel (.ifE cc t e) env store kont meta c
        = ⟨.ok (.more ⟨bif bv then t else e, env, store, kont, meta⟩),
            meta, c⟩)
    ∧ (stepGo M fuel (.ifE cc t e) env store kont meta c
        = ⟨.err .ifRequiresBool, meta, c⟩
      ↔ ¬ ∃ b bv, v = .scalar b ∧ M.typeofBoolean b = some bv) := by
  constructor
  · intro b bv hv ht
    subst hv
    rw [stepGo_ifE]
    simp only [hp, ht]
  · constructor
    · intro h hex
      obtain ⟨b, bv, hv, ht⟩ := hex
      subst hv
      rw [stepGo_ifE] at h
      simp only [hp, ht] at h
      injection h with h1
      exact CRes.noConfusion h1
    · intro hn
      rw [stepGo_ifE]
      simp only [hp]
      match v with
      | .scalar b =>
        rcases ht : M.typeofBoolean b with - | bv
        · simp only [ht]
        · exact absurd ⟨b, bv, rfl, ht⟩ hn
      | .kont k => rfl
      | .undef => rfl

/-- C7 witness: `if` on a literal boolean condition takes the then-branch,
and the error characterisation holds there. -/
theorem c7_witness :
    stepGo boolMachine 1 (.ifE (.lit true) (.lit false) (.lit true)) [] []
        (.top : Continuation Bool Bool) [] 0
      = ⟨.ok (.more ⟨.lit false, [], [], .top, []⟩), [], 0⟩
    ∧ (stepGo boolMachine 1 (.ifE (.lit true) (.lit false) (.lit true)) [] []
        (.top : Continuation Bool Bool) [] 0
        = ⟨.err .ifRequiresBool, [], 0⟩
      ↔ ¬ ∃ b bv, (Value.scalar true : Value Bool Bool) = .scalar b
          ∧ boolMachine.typeofBoolean b = some bv) :=
  ⟨(c7_if_requires_bool boolMachine 1 (.lit true) (.lit false) (.lit true)
      [] [] .top [] 0 (Value.scalar true) rfl).1 true true rfl rfl,
   (c7_if_requires_bool boolMachine 1 (.lit true) (.lit false) (.lit true)
      [] [] .top [] 0 (Value.scalar true) rfl).2⟩

/-- C8 counterexample: the `Shift` transition consults the machine-level
`gensymCount`, which is not part of the `State`: stepping the same state
with counter 0 and with counter 1 yields different successor states (the
captured-continuation address differs). -/
theorem c8_counterexample :
    (stepF boolMachine 1 (inject (.shiftE "k" (.sym "k"))) 0).res
      ≠ (stepF boolMachine 1 (inject (.shiftE "k" (.sym "k"))) 1).res := by
  intro h
  have h2 : (CRes.ok (.more (⟨.sym "k", [("k", Sum.inl (gensym 0))],
      [(gensym 0, Value.kont .top)], .top, []⟩ : MState Bool Bool)))
      = .ok (.more ⟨.sym "k", [("k", Sum.inl (gensym 1))],
      [(gensym 1, Value.kont .top)], .top, []⟩) := h
  injection h2 with h3
  injection h3 with h4
  have h5 : ([("k", Sum.inl (gensym 0))] : EnvRec Bool)
      = [("k", Sum.inl (gensym 1))] := congrArg MState.environment h4
  injection h5 with h6 htail
  injection h6 with hfst h7
  injection h7 with h8
  exact absurd (gensym_injective h8) (by omega)

/-- C8 (amended): `step` is deterministic as a function of the machine
state TOGETHER WITH the gensym counter: structurally equal states stepped
at equal counter values produce equal results; equal states alone do not
suffice (see the counterexample). -/
theorem c8_deterministic {L B : Type} (M : CESKM L B) (fuel : Nat)
    (s1 s2 : MState L B) (c1 c2 : Nat) (hs : s1 = s2) (hc : c1 = c2) :
    stepF M fuel s1 c1 = stepF M fuel s2 c2 := by
  rw [hs, hc]

/-- C8 witness: equal state and counter give equal step results. -/
theorem c8_witness :
    stepF boolMachine 1 (inject (Cbpv.lit true)) 0
      = stepF boolMachine 1 (inject (.lit true)) 0 :=
  c8_deterministic boolMachine 1 (inject (.lit true)) (inject (.lit true))
    0 0 rfl rfl

/-- C9: `positive` peels nested `Suspend` off positive terms —
`positive(Suspend(Suspend t))` equals `positive(Suspend t)` for every term
`t` — and `Suspend` of a non-positive term evaluates to the closure
`KontVal(Let([], t, env, Top))` over the current environment. -/
theorem c9_suspend_peel {L B : Type} (M : CESKM L B) (t : Cbpv L)
    (env : EnvRec L) (store : StoreRec L B) :
    positive M (.suspend (.suspend t)) env store
      = positive M (.suspend t) env store
    ∧ (cbpv_is_positive t = false →
        positive M (.suspend t) env store = .ok (closure t env)) := by
  constructor
  · rfl
  · intro h
    have h0 : positive M (.suspend t) env store
        = if cbpv_is_positive t then positive M t env store
          else .ok (closure t env) := rfl
    rw [h0, h]
    simp

/-- C9 witness: double suspension of a non-positive term. -/
theorem c9_witness :
    positive boolMachine (.suspend (.suspend (.resume (.lit true)))) [] []
      = positive boolMachine (.suspend (.resume (.lit true))) [] []
    ∧ positive boolMachine (.suspend (.resume (.lit true))) [] []
      = .ok (closure (.resume (.lit true)) []) :=
  ⟨(c9_suspend_peel boolMachine (.resume (.lit true)) [] []).1,
   (c9_suspend_peel boolMachine (.resume (.lit true)) [] []).2 rfl⟩

/-- C10: delivering a scalar to an `Arg` frame raises ExpectedContinuation
only after the frame's successor has been pushed onto the caller's
meta-stack: the failing call leaves the meta-stack grown by that one entry,
so the failure is not atomic with respect to the meta-stack. -/
theorem c10_meta_mutation_on_failure {L B : Type} (fuel : Nat) (b : B)
    (vs : List (Value L B)) (k1 : Continuation L B) (store : StoreRec L B)
    (meta : List (Continuation L B)) (c : Nat) :
    continueV (fuel + 1) (.scalar b) (.args vs k1) store meta c
      = ⟨.err .expectedContinuation, k1 :: meta, c⟩ :=
  rfl

end Precursor
